import Mathlib

/-!
Verification of the options-Greeks system (Black-Scholes pricing, Greeks,
implied-volatility solver, delta-hedging simulator).

The Python sources are shallowly embedded over `ℝ`:
* floating-point arithmetic is modelled by exact real arithmetic;
* `scipy.stats.norm.pdf` / `norm.cdf` are modelled by the standard normal
  density `normPdf` and its integral `normCdf`;
* a raised exception (`ValueError` for a bad option-kind string, `NameError`
  for the unbound loop variable in `implied_volatility_bisection` when
  `max_iterations = 0`) is modelled by `Option`/`Except` failure values;
* the seeded NumPy random source is modelled by an arbitrary sequence
  `Z : ℕ → ℝ` of standard-normal draws (a fixed seed determines one such
  sequence).
-/

noncomputable section

namespace BSM

open MeasureTheory Real Set

/-- Option-kind discriminant.  The Python code receives a string and tests
`option_type.lower() == 'call'` / `== 'put'`; `other` stands for any string
whose lowercase form is neither. -/
inductive OptKind where
  | call
  | put
  | other
  deriving DecidableEq

/-- Standard normal density, as used by `scipy.stats.norm.pdf`. -/
def normPdf (x : ℝ) : ℝ := Real.exp (-(x ^ 2) / 2) / Real.sqrt (2 * Real.pi)

/-- Standard normal cumulative distribution, as used by `scipy.stats.norm.cdf`. -/
def normCdf (x : ℝ) : ℝ := ∫ t in Iic x, normPdf t

/-! ## src/black_scholes.py -/

/-- Function `d1(S, K, T, r, sigma)` from `src/black_scholes.py`: returns `0.0` when
`T <= 0`, otherwise `(log(S/K) + (r + 0.5*sigma**2)*T) / (sigma*sqrt(T))`. -/
def d1 (S K T r sigma : ℝ) : ℝ :=
  if T ≤ 0 then 0
  else (Real.log (S / K) + (r + 0.5 * sigma ^ 2) * T) / (sigma * Real.sqrt T)

/-- Function `d2(S, K, T, r, sigma) = d1(...) - sigma*sqrt(T)` from `src/black_scholes.py`. -/
def d2 (S K T r sigma : ℝ) : ℝ :=
  d1 S K T r sigma - sigma * Real.sqrt T

/-- The `'call'` branch of `black_scholes_price`:
`S * norm.cdf(d1) - K * exp(-r*T) * norm.cdf(d2)`. -/
def callPrice (S K T r sigma : ℝ) : ℝ :=
  S * normCdf (d1 S K T r sigma) - K * Real.exp (-(r * T)) * normCdf (d2 S K T r sigma)

/-- The `'put'` branch of `black_scholes_price`:
`K * exp(-r*T) * norm.cdf(-d2) - S * norm.cdf(-d1)`. -/
def putPrice (S K T r sigma : ℝ) : ℝ :=
  K * Real.exp (-(r * T)) * normCdf (-(d2 S K T r sigma))
    - S * normCdf (-(d1 S K T r sigma))

/-- Function `black_scholes_price` from `src/black_scholes.py`.  The `else` branch of the
source raises `ValueError`; this is modelled by `none`. -/
def black_scholes_price (S K T r sigma : ℝ) : OptKind → Option ℝ
  | OptKind.call => some (callPrice S K T r sigma)
  | OptKind.put => some (putPrice S K T r sigma)
  | OptKind.other => none

/-! ## src/greeks.py -/

/-- Function `delta` from `src/greeks.py`.  Note the source's branch structure: `if
option_type.lower() == 'call': return norm.cdf(d_1)` and otherwise (`else`,
covering `'put'` and every other string) `return norm.cdf(d_1) - 1`. -/
def delta (S K T r sigma : ℝ) (ot : OptKind) : ℝ :=
  if ot = OptKind.call then normCdf (d1 S K T r sigma)
  else normCdf (d1 S K T r sigma) - 1

/-- Function `gamma` from `src/greeks.py` (kind-independent). -/
def gamma (S K T r sigma : ℝ) : ℝ :=
  normPdf (d1 S K T r sigma) / (S * sigma * Real.sqrt T)

/-- Function `vega` from `src/greeks.py` (kind-independent, reported per 1% volatility
move, hence the division by 100). -/
def vega (S K T r sigma : ℝ) : ℝ :=
  S * Real.sqrt T * normPdf (d1 S K T r sigma) / 100

/-- Function `theta` from `src/greeks.py`.  As with `delta`, any kind other than
`call` takes the put branch. -/
def theta (S K T r sigma : ℝ) (ot : OptKind) : ℝ :=
  (-(S * normPdf (d1 S K T r sigma) * sigma) / (2 * Real.sqrt T)
    + (if ot = OptKind.call then
        -(r * K * Real.exp (-(r * T)) * normCdf (d2 S K T r sigma))
      else r * K * Real.exp (-(r * T)) * normCdf (-(d2 S K T r sigma)))) / 365

/-- Function `rho` from `src/greeks.py`.  As with `delta`, any kind other than `call`
takes the put branch. -/
def rho (S K T r sigma : ℝ) (ot : OptKind) : ℝ :=
  (if ot = OptKind.call then K * T * Real.exp (-(r * T)) * normCdf (d2 S K T r sigma)
   else -(K * T * Real.exp (-(r * T)) * normCdf (-(d2 S K T r sigma)))) / 100

/-- The dictionary returned by `calculate_all_greeks`. -/
structure GreeksResult where
  delta : ℝ
  gamma : ℝ
  vega : ℝ
  theta : ℝ
  rho : ℝ
  deriving DecidableEq

/-- Function `calculate_all_greeks` from `src/greeks.py`. -/
def calculate_all_greeks (S K T r sigma : ℝ) (ot : OptKind) : GreeksResult :=
  { delta := delta S K T r sigma ot
    gamma := gamma S K T r sigma
    vega := vega S K T r sigma
    theta := theta S K T r sigma ot
    rho := rho S K T r sigma ot }

/-! ## src/implied_volatility.py -/

/-- The dictionary returned by the two root-finders in
`src/implied_volatility.py`. -/
structure SolverResult where
  implied_vol : ℝ
  converged : Bool
  iterations : ℕ
  final_error : ℝ

/-- The body of the `for i in range(max_iterations)` loop of
`implied_volatility_newton`, together with the return statement that follows
the loop.  `fuel` is the number of loop iterations still allowed, `i` the
current 0-based loop index, `sigma` the current volatility iterate.  A
`ValueError` raised by `black_scholes_price` (unknown option kind) is modelled
by `Except.error ()`. -/
def newtonGo (market S K T r tol : ℝ) (ot : OptKind) (maxIter : ℕ) :
    ℕ → ℕ → ℝ → Except Unit SolverResult
  | 0, _, sigma =>
      match black_scholes_price S K T r sigma ot with
      | none => Except.error ()
      | some p => Except.ok ⟨sigma, false, maxIter, |p - market|⟩
  | fuel + 1, i, sigma =>
      match black_scholes_price S K T r sigma ot with
      | none => Except.error ()
      | some bs_price =>
        if |bs_price - market| < tol then
          Except.ok ⟨sigma, true, i + 1, |bs_price - market|⟩
        else if |vega S K T r sigma * 100| < 1e-10 then
          match black_scholes_price S K T r sigma ot with
          | none => Except.error ()
          | some p => Except.ok ⟨sigma, false, maxIter, |p - market|⟩
        else
          newtonGo market S K T r tol ot maxIter fuel (i + 1)
            (if sigma - (bs_price - market) / (vega S K T r sigma * 100) ≤ 0 then 0.01
             else sigma - (bs_price - market) / (vega S K T r sigma * 100))

/-- Function `implied_volatility_newton` from `src/implied_volatility.py` (Python
defaults: `initial_vol=0.2`, `tolerance=1e-6`, `max_iterations=100`). -/
def implied_volatility_newton (market S K T r : ℝ) (ot : OptKind)
    (initial_vol tol : ℝ) (maxIter : ℕ) : Except Unit SolverResult :=
  newtonGo market S K T r tol ot maxIter maxIter 0 initial_vol

/-- The return statement after the bisection loop: the non-converged
dictionary built from the last midpoint (the source recomputes the
Black-Scholes price at `vol_mid` for `final_error`). -/
def bisectFinal (market S K T r : ℝ) (ot : OptKind) (maxIter : ℕ) (mid : ℝ) :
    Except Unit SolverResult :=
  match black_scholes_price S K T r mid ot with
  | none => Except.error ()
  | some p => Except.ok ⟨mid, false, maxIter, |p - market|⟩

/-- The `for i in range(max_iterations)` loop of `implied_volatility_bisection`.
`lastMid` carries the Python variable `vol_mid`, which is unbound (`none`)
before the first iteration; reaching the end of the loop with `lastMid = none`
(that is, `max_iterations = 0`) models the `NameError` the source would raise
in its final return statement. -/
def bisectGo (market S K T r tol : ℝ) (ot : OptKind) (maxIter : ℕ) :
    ℕ → ℕ → ℝ → ℝ → Option ℝ → Except Unit SolverResult
  | 0, _, _, _, none => Except.error ()
  | 0, _, _, _, some mid => bisectFinal market S K T r ot maxIter mid
  | fuel + 1, i, vol_low, vol_high, _ =>
      match black_scholes_price S K T r ((vol_low + vol_high) / 2) ot with
      | none => Except.error ()
      | some price_mid =>
        if |price_mid - market| < tol then
          Except.ok ⟨(vol_low + vol_high) / 2, true, i + 1, |price_mid - market|⟩
        else if price_mid - market > 0 then
          bisectGo market S K T r tol ot maxIter fuel (i + 1)
            vol_low ((vol_low + vol_high) / 2) (some ((vol_low + vol_high) / 2))
        else
          bisectGo market S K T r tol ot maxIter fuel (i + 1)
            ((vol_low + vol_high) / 2) vol_high (some ((vol_low + vol_high) / 2))

/-- Function `implied_volatility_bisection` from `src/implied_volatility.py` (Python
defaults: `vol_low=0.001`, `vol_high=3.0`, `tolerance=1e-6`,
`max_iterations=100`). -/
def implied_volatility_bisection (market S K T r : ℝ) (ot : OptKind)
    (vol_low vol_high tol : ℝ) (maxIter : ℕ) : Except Unit SolverResult :=
  bisectGo market S K T r tol ot maxIter maxIter 0 vol_low vol_high none

/-- Function `calculate_implied_vol` from `src/implied_volatility.py`: Newton first
(with its defaults), bisection on non-convergence (with its defaults), and
`np.nan` — modelled by the inner `none` — when both fail. -/
def calculate_implied_vol (market S K T r : ℝ) (ot : OptKind) :
    Except Unit (Option ℝ) :=
  match implied_volatility_newton market S K T r ot 0.2 1e-6 100 with
  | Except.error e => Except.error e
  | Except.ok result =>
    if result.converged then Except.ok (some result.implied_vol)
    else
      match implied_volatility_bisection market S K T r ot 0.001 3.0 1e-6 100 with
      | Except.error e => Except.error e
      | Except.ok result2 =>
        if result2.converged then Except.ok (some result2.implied_vol)
        else Except.ok none

/-! ## src/delta_hedging.py -/

/-- Function `simulate_stock_path` from `src/delta_hedging.py`:
`path[i] = path[i-1] * exp((r - 0.5*sigma**2)*dt + sigma*sqrt(dt)*Z_i)` with
`dt = T/n_steps`; `Z` is the sequence of standard-normal draws produced by the
seeded NumPy generator. -/
def simulate_stock_path (S0 r sigma T : ℝ) (n_steps : ℕ) (Z : ℕ → ℝ) : ℕ → ℝ
  | 0 => S0
  | i + 1 =>
      simulate_stock_path S0 r sigma T n_steps Z i *
        Real.exp ((r - 0.5 * sigma ^ 2) * (T / n_steps)
          + sigma * Real.sqrt (T / n_steps) * Z (i + 1))

/-- The inputs of one `simulate_delta_hedging` run.  `isCall` is the result of
the source's `'call' in position.lower()` test, so the simulator's
`option_type` is always a genuine call or put.  `Z` models the seeded random
draws. -/
structure HedgeParams where
  S0 : ℝ
  K : ℝ
  T : ℝ
  r : ℝ
  sigma : ℝ
  n_steps : ℕ
  isCall : Bool
  Z : ℕ → ℝ

namespace HedgeParams

/-- The option kind the simulator derives from `position`. -/
def ot (p : HedgeParams) : OptKind :=
  if p.isCall then OptKind.call else OptKind.put

/-- The price the simulator obtains from `black_scholes_price` (always defined
since `p.ot` is `call` or `put`). -/
def bsp (p : HedgeParams) (S tau : ℝ) : ℝ :=
  if p.isCall then callPrice S p.K tau p.r p.sigma else putPrice S p.K tau p.r p.sigma

/-- Column `stock_price` of the returned DataFrame. -/
def path (p : HedgeParams) : ℕ → ℝ :=
  simulate_stock_path p.S0 p.r p.sigma p.T p.n_steps p.Z

/-- Column `time`: `np.linspace(0, T, n_steps+1)[i] = i * (T / n_steps)`. -/
def timeAt (p : HedgeParams) (i : ℕ) : ℝ := i * (p.T / p.n_steps)

/-- Field `option_premium = black_scholes_price(S0, K, T, r, sigma, option_type)`. -/
def premium (p : HedgeParams) : ℝ := p.bsp p.S0 p.T

/-- Column `delta`: `deltas[0]` at inception, and in the loop either the
Greeks-engine delta (`tau > 0.0001`) or the expiry indicator. -/
def deltaAt (p : HedgeParams) (i : ℕ) : ℝ :=
  if i = 0 then delta p.S0 p.K p.T p.r p.sigma p.ot
  else if p.T - p.timeAt i > 0.0001 then
    delta (p.path i) p.K (p.T - p.timeAt i) p.r p.sigma p.ot
  else if p.isCall then (if p.path i > p.K then 1 else 0)
  else (if p.path i < p.K then -1 else 0)

/-- Column `shares_held`: `shares[i] = deltas[i]` at every step. -/
def sharesAt (p : HedgeParams) (i : ℕ) : ℝ := p.deltaAt i

/-- Column `option_value`: the premium at inception, and in the loop either the
Black-Scholes value at the remaining maturity (`tau > 0.0001`) or the intrinsic
payoff. -/
def optionValueAt (p : HedgeParams) (i : ℕ) : ℝ :=
  if i = 0 then p.premium
  else if p.T - p.timeAt i > 0.0001 then p.bsp (p.path i) (p.T - p.timeAt i)
  else if p.isCall then max (p.path i - p.K) 0
  else max (p.K - p.path i) 0

/-- Column `cash`: `cash[0] = option_premium - shares[0]*S0`, then
`cash[i] = cash[i-1] + cash[i-1]*(exp(r*dt) - 1) - (deltas[i] - shares[i-1]) * S_i`. -/
def cashAt (p : HedgeParams) : ℕ → ℝ
  | 0 => p.premium - p.sharesAt 0 * p.S0
  | i + 1 =>
      p.cashAt i + p.cashAt i * (Real.exp (p.r * (p.T / p.n_steps)) - 1)
        - (p.deltaAt (i + 1) - p.sharesAt i) * p.path (i + 1)

/-- Column `portfolio_value`:
`portfolio_values[0] = cash[0] + shares[0]*S0 - option_premium` and in the loop
`portfolio_values[i] = cash[i] + shares[i]*S - option_values[i]`. -/
def portfolioAt (p : HedgeParams) (i : ℕ) : ℝ :=
  if i = 0 then p.cashAt 0 + p.sharesAt 0 * p.S0 - p.premium
  else p.cashAt i + p.sharesAt i * p.path i - p.optionValueAt i

end HedgeParams

/-! ## Definitions used by the verification itself -/

/-- The quantity whose nonnegativity underlies nonnegativity of Black-Scholes
prices: `gKernel a x = e^(a x) Φ(x + a/2) - Φ(x - a/2)`. -/
def gKernel (a x : ℝ) : ℝ :=
  Real.exp (a * x) * normCdf (x + a/2) - normCdf (x - a/2)

/-- The Newton-Raphson iteration exactly as the specification words it
(claim C5), written against an abstract price function `price` (price of the
option as a function of σ) and Greeks-engine vega `vegaF`: compute
`error = price σ - market`; report convergence with the iteration count and
`|error|` when `|error| < tol`; abort (returning the non-converged result with
the current σ and its residual error) when `|vegaF σ * 100| < 1e-10`;
otherwise update `σ ← σ - error / (vegaF σ * 100)`, resetting σ to 0.01
whenever the update yields σ ≤ 0; a non-converged result carries the final σ,
`max_iterations` and the residual error. -/
def newtonSpecLoop (price vegaF : ℝ → ℝ) (market tol : ℝ) (maxIter : ℕ) :
    ℕ → ℕ → ℝ → SolverResult
  | 0, _, sigma => ⟨sigma, false, maxIter, |price sigma - market|⟩
  | fuel + 1, i, sigma =>
      if |price sigma - market| < tol then
        ⟨sigma, true, i + 1, |price sigma - market|⟩
      else if |vegaF sigma * 100| < 1e-10 then
        ⟨sigma, false, maxIter, |price sigma - market|⟩
      else
        newtonSpecLoop price vegaF market tol maxIter fuel (i + 1)
          (if sigma - (price sigma - market) / (vegaF sigma * 100) ≤ 0 then 0.01
           else sigma - (price sigma - market) / (vegaF sigma * 100))

/-- The specification's Newton-Raphson protocol, started from σ = 0.20. -/
def newtonSpecRun (price vegaF : ℝ → ℝ) (market tol : ℝ) (maxIter : ℕ) :
    SolverResult :=
  newtonSpecLoop price vegaF market tol maxIter maxIter 0 0.2

/-! ## Facts about the standard normal density and CDF -/

lemma normPdf_nonneg (x : ℝ) : 0 ≤ normPdf x :=
  div_nonneg (Real.exp_pos _).le (Real.sqrt_nonneg _)

lemma normPdf_even (x : ℝ) : normPdf (-x) = normPdf x := by
  simp [normPdf]

lemma normPdf_eq_fun :
    normPdf = fun x => (Real.sqrt (2 * Real.pi))⁻¹ * Real.exp (-(1/2 : ℝ) * x ^ 2) := by
  funext x
  rw [normPdf, div_eq_inv_mul]
  ring_nf

lemma integrable_normPdf : Integrable normPdf := by
  rw [normPdf_eq_fun]
  exact (integrable_exp_neg_mul_sq (by norm_num : (0:ℝ) < 1/2)).const_mul _

lemma integral_normPdf : ∫ x, normPdf x = 1 := by
  rw [normPdf_eq_fun]
  rw [MeasureTheory.integral_mul_left, integral_gaussian]
  have h2 : Real.pi / (1/2 : ℝ) = 2 * Real.pi := by ring
  rw [h2]
  refine inv_mul_cancel₀ ?_
  positivity

lemma normCdf_nonneg (x : ℝ) : 0 ≤ normCdf x :=
  setIntegral_nonneg measurableSet_Iic fun t _ => normPdf_nonneg t

lemma normCdf_le_one (x : ℝ) : normCdf x ≤ 1 := by
  rw [← integral_normPdf]
  exact setIntegral_le_integral integrable_normPdf
    (Filter.Eventually.of_forall normPdf_nonneg)

lemma normCdf_neg_eq (x : ℝ) : normCdf (-x) = ∫ t in Ioi x, normPdf t := by
  have h := integral_comp_neg_Iic (-x) normPdf
  simp only [neg_neg] at h
  rw [normCdf, ← h]
  simp [normPdf_even]

lemma normCdf_add_normCdf_neg (x : ℝ) : normCdf x + normCdf (-x) = 1 := by
  rw [normCdf, normCdf_neg_eq,
    intervalIntegral.integral_Iic_add_Ioi integrable_normPdf.integrableOn integrable_normPdf.integrableOn,
    integral_normPdf]

lemma normCdf_zero : normCdf 0 = 1/2 := by
  have h := normCdf_add_normCdf_neg 0
  rw [neg_zero] at h
  linarith

lemma continuous_normPdf : Continuous normPdf :=
  (Real.continuous_exp.comp ((continuous_pow 2).neg.div_const 2)).div_const _

lemma hasDerivAt_normCdf (x : ℝ) : HasDerivAt normCdf (normPdf x) x := by
  have key : ∀ y : ℝ, normCdf y = normCdf 0 + ∫ t in (0:ℝ)..y, normPdf t := by
    intro y
    rw [normCdf, normCdf,
      ← intervalIntegral.integral_Iic_sub_Iic integrable_normPdf.integrableOn integrable_normPdf.integrableOn]
    ring
  have hd : HasDerivAt (fun y : ℝ => normCdf 0 + ∫ t in (0:ℝ)..y, normPdf t)
      (normPdf x) x := by
    refine HasDerivAt.const_add _ ?_
    exact intervalIntegral.integral_hasDerivAt_right
      integrable_normPdf.intervalIntegrable
      (continuous_normPdf.stronglyMeasurableAtFilter _ _)
      continuous_normPdf.continuousAt
  exact hd.congr_of_eventuallyEq (Filter.Eventually.of_forall key)

lemma normCdf_le_gauss_bound {x : ℝ} (hx : x ≤ 0) :
    normCdf x ≤ (Real.sqrt (2*Real.pi))⁻¹ * Real.sqrt (Real.pi / (1/4))
      * Real.exp (-(x^2)/4) := by
  have hint : Integrable (fun t : ℝ =>
      (Real.sqrt (2 * Real.pi))⁻¹ * (Real.exp (-(x^2)/4) * Real.exp (-(1/4 : ℝ) * t^2))) :=
    ((integrable_exp_neg_mul_sq (by norm_num : (0:ℝ) < 1/4)).const_mul _).const_mul _
  have step1 : normCdf x ≤ ∫ t in Iic x,
      (Real.sqrt (2 * Real.pi))⁻¹ * (Real.exp (-(x^2)/4) * Real.exp (-(1/4 : ℝ) * t^2)) := by
    rw [normCdf]
    refine setIntegral_mono_on integrable_normPdf.integrableOn hint.integrableOn
      measurableSet_Iic ?_
    intro t ht
    rw [mem_Iic] at ht
    rw [normPdf, div_eq_inv_mul]
    refine mul_le_mul_of_nonneg_left ?_ (by positivity)
    rw [← Real.exp_add]
    refine Real.exp_le_exp.mpr ?_
    nlinarith [sq_nonneg (t - x), sq_nonneg (t + x)]
  have step2 : (∫ t in Iic x,
      (Real.sqrt (2 * Real.pi))⁻¹ * (Real.exp (-(x^2)/4) * Real.exp (-(1/4 : ℝ) * t^2)))
      ≤ ∫ t : ℝ,
      (Real.sqrt (2 * Real.pi))⁻¹ * (Real.exp (-(x^2)/4) * Real.exp (-(1/4 : ℝ) * t^2)) := by
    refine setIntegral_le_integral hint (Filter.Eventually.of_forall fun t => ?_)
    positivity
  have step3 : (∫ t : ℝ,
      (Real.sqrt (2 * Real.pi))⁻¹ * (Real.exp (-(x^2)/4) * Real.exp (-(1/4 : ℝ) * t^2)))
      = (Real.sqrt (2*Real.pi))⁻¹ * Real.sqrt (Real.pi / (1/4)) * Real.exp (-(x^2)/4) := by
    rw [MeasureTheory.integral_mul_left, MeasureTheory.integral_mul_left, integral_gaussian]
    ring
  calc normCdf x ≤ _ := step1
    _ ≤ _ := step2
    _ = _ := step3

lemma tendsto_normCdf_atBot : Filter.Tendsto normCdf Filter.atBot (nhds 0) := by
  have hC : 0 ≤ (Real.sqrt (2*Real.pi))⁻¹ * Real.sqrt (Real.pi / (1/4)) := by positivity
  have hup : Filter.Tendsto
      (fun x : ℝ => (Real.sqrt (2*Real.pi))⁻¹ * Real.sqrt (Real.pi / (1/4)) * Real.exp (x/2))
      Filter.atBot (nhds 0) := by
    have hhalf : Filter.Tendsto (fun x : ℝ => x/2) Filter.atBot Filter.atBot := by
      simpa [div_eq_inv_mul] using
        (Filter.tendsto_id (α := ℝ)).const_mul_atBot (by norm_num : (0:ℝ) < 1/2)
    have := Real.tendsto_exp_atBot.comp hhalf
    simpa using this.const_mul ((Real.sqrt (2*Real.pi))⁻¹ * Real.sqrt (Real.pi / (1/4)))
  refine tendsto_of_tendsto_of_tendsto_of_le_of_le' tendsto_const_nhds hup
    (Filter.Eventually.of_forall normCdf_nonneg) ?_
  refine Filter.eventually_atBot.2 ⟨-2, fun x hx => ?_⟩
  have h1 := normCdf_le_gauss_bound (le_trans hx (by norm_num))
  have h2 : Real.exp (-(x^2)/4) ≤ Real.exp (x/2) := by
    refine Real.exp_le_exp.mpr ?_
    nlinarith [sq_nonneg (x + 2)]
  calc normCdf x ≤ _ := h1
    _ ≤ _ := mul_le_mul_of_nonneg_left h2 hC

lemma normPdf_shift (a x : ℝ) :
    Real.exp (a * x) * normPdf (x + a/2) = normPdf (x - a/2) := by
  rw [normPdf, normPdf, mul_div_assoc', ← Real.exp_add]
  congr 2
  ring

lemma hasDerivAt_gKernel (a x : ℝ) :
    HasDerivAt (gKernel a) (a * Real.exp (a * x) * normCdf (x + a/2)) x := by
  have h1 : HasDerivAt (fun y : ℝ => Real.exp (a * y)) (Real.exp (a * x) * a) x := by
    have hlin : HasDerivAt (fun y : ℝ => a * y) a x := by
      simpa using (hasDerivAt_id x).const_mul a
    exact hlin.exp
  have h2 : HasDerivAt (fun y : ℝ => normCdf (y + a/2)) (normPdf (x + a/2)) x := by
    have hid : HasDerivAt (fun y : ℝ => y + a/2) 1 x := (hasDerivAt_id x).add_const _
    simpa using (hasDerivAt_normCdf (x + a/2)).comp x hid
  have h3 : HasDerivAt (fun y : ℝ => normCdf (y - a/2)) (normPdf (x - a/2)) x := by
    have hid : HasDerivAt (fun y : ℝ => y - a/2) 1 x := (hasDerivAt_id x).sub_const _
    simpa using (hasDerivAt_normCdf (x - a/2)).comp x hid
  have h4 := (h1.mul h2).sub h3
  have heq : Real.exp (a*x) * a * normCdf (x + a/2) + Real.exp (a*x) * normPdf (x + a/2)
      - normPdf (x - a/2) = a * Real.exp (a*x) * normCdf (x + a/2) := by
    have hs := normPdf_shift a x
    linarith
  exact heq ▸ h4

lemma monotone_gKernel {a : ℝ} (ha : 0 ≤ a) : Monotone (gKernel a) := by
  refine @monotone_of_hasDerivAt_nonneg (gKernel a)
    (fun x => a * Real.exp (a*x) * normCdf (x + a/2))
    (fun x => hasDerivAt_gKernel a x) (fun x => ?_)
  exact mul_nonneg (mul_nonneg ha (Real.exp_pos _).le) (normCdf_nonneg _)

lemma tendsto_gKernel_atBot {a : ℝ} (ha : 0 < a) :
    Filter.Tendsto (gKernel a) Filter.atBot (nhds 0) := by
  have h1 : Filter.Tendsto (fun x : ℝ => Real.exp (a*x) * normCdf (x + a/2))
      Filter.atBot (nhds 0) := by
    have hexp : Filter.Tendsto (fun x : ℝ => Real.exp (a*x)) Filter.atBot (nhds 0) :=
      Real.tendsto_exp_atBot.comp ((Filter.tendsto_id (α := ℝ)).const_mul_atBot ha)
    refine tendsto_of_tendsto_of_tendsto_of_le_of_le' tendsto_const_nhds hexp
      (Filter.Eventually.of_forall fun x =>
        mul_nonneg (Real.exp_pos _).le (normCdf_nonneg _))
      (Filter.Eventually.of_forall fun x => ?_)
    have hle := normCdf_le_one (x + a/2)
    nlinarith [Real.exp_pos (a*x), normCdf_nonneg (x + a/2)]
  have h2 : Filter.Tendsto (fun x : ℝ => normCdf (x - a/2)) Filter.atBot (nhds 0) := by
    have hshift : Filter.Tendsto (fun x : ℝ => x - a/2) Filter.atBot Filter.atBot := by
      simpa [sub_eq_add_neg] using
        Filter.tendsto_atBot_add_const_right Filter.atBot (-(a/2)) (Filter.tendsto_id (α := ℝ))
    exact tendsto_normCdf_atBot.comp hshift
  have := h1.sub h2
  simpa [gKernel] using this

lemma gKernel_nonneg {a : ℝ} (ha : 0 < a) (x : ℝ) : 0 ≤ gKernel a x := by
  refine le_of_tendsto (tendsto_gKernel_atBot ha) ?_
  exact Filter.eventually_atBot.2 ⟨x, fun y hy => monotone_gKernel ha.le hy⟩

/-! ## Claim C1: self-financing identity -/

/-- Claim C1: in every hedging simulation run (any S0>0, K>0, T>0, σ>0,
n_steps ≥ 1, call or put, any draw sequence), the self-financing identity
`portfolio_value_i = cash_i + shares_held_i * stock_price_i - option_value_i`
holds exactly at every step `0 ≤ i ≤ n_steps`. -/
theorem C1_self_financing (p : HedgeParams) (hS0 : 0 < p.S0) (hK : 0 < p.K)
    (hT : 0 < p.T) (hsig : 0 < p.sigma) (hn : 1 ≤ p.n_steps) :
    ∀ i ≤ p.n_steps,
      p.portfolioAt i = p.cashAt i + p.sharesAt i * p.path i - p.optionValueAt i := by
  intro i _
  cases i with
  | zero => rfl
  | succ j => simp [HedgeParams.portfolioAt]

/-- Witness for C1 at S0 = K = T = σ = 1, r = 0, one step, short call, zero
draws, step i = 1. -/
theorem C1_witness :
    (0:ℝ) < 1 ∧
    (HedgeParams.mk 1 1 1 0 1 1 true (fun _ => 0)).portfolioAt 1 =
      (HedgeParams.mk 1 1 1 0 1 1 true (fun _ => 0)).cashAt 1
        + (HedgeParams.mk 1 1 1 0 1 1 true (fun _ => 0)).sharesAt 1
          * (HedgeParams.mk 1 1 1 0 1 1 true (fun _ => 0)).path 1
        - (HedgeParams.mk 1 1 1 0 1 1 true (fun _ => 0)).optionValueAt 1 :=
  ⟨by norm_num,
    C1_self_financing (HedgeParams.mk 1 1 1 0 1 1 true (fun _ => 0))
      (by norm_num) (by norm_num) (by norm_num) (by norm_num) (le_refl 1) 1 (le_refl 1)⟩

/-! ## Claim C7: cash evolution -/

/-- Claim C7: in every hedging simulation run, for `1 ≤ i ≤ n_steps`,
`cash_i = cash_(i-1) * e^(r dt) - (delta_i - shares_(i-1)) * S_i` exactly:
risk-free accrual plus the rebalancing trade, nothing else. -/
theorem C7_cash_update (p : HedgeParams) :
    ∀ i, 1 ≤ i → i ≤ p.n_steps →
      p.cashAt i = p.cashAt (i-1) * Real.exp (p.r * (p.T / p.n_steps))
        - (p.deltaAt i - p.sharesAt (i-1)) * p.path i := by
  intro i h1 _
  obtain ⟨j, rfl⟩ : ∃ j, i = j + 1 := ⟨i - 1, (Nat.succ_pred_eq_of_pos h1).symm⟩
  simp only [HedgeParams.cashAt, Nat.add_sub_cancel]
  ring

/-- Witness for C7 at S0 = K = T = σ = 1, r = 0, one step, short call, zero
draws, step i = 1. -/
theorem C7_witness :
    (1:ℕ) ≤ 1 ∧
    (HedgeParams.mk 1 1 1 0 1 1 true (fun _ => 0)).cashAt 1 =
      (HedgeParams.mk 1 1 1 0 1 1 true (fun _ => 0)).cashAt 0
          * Real.exp ((0:ℝ) * ((1:ℝ) / (1:ℕ)))
        - ((HedgeParams.mk 1 1 1 0 1 1 true (fun _ => 0)).deltaAt 1
            - (HedgeParams.mk 1 1 1 0 1 1 true (fun _ => 0)).sharesAt 0)
          * (HedgeParams.mk 1 1 1 0 1 1 true (fun _ => 0)).path 1 :=
  ⟨le_refl 1,
    C7_cash_update (HedgeParams.mk 1 1 1 0 1 1 true (fun _ => 0)) 1 (le_refl 1) (le_refl 1)⟩

/-! ## Claim C8: positivity of the simulated stock path -/

/-- Claim C8: for S0 > 0 (any r, σ, T > 0, n_steps ≥ 1, any draws), every
element of the simulated stock path is strictly positive, so the hedging
simulator never feeds a non-positive spot into the pricing/Greeks engines. -/
theorem C8_path_positive (S0 r sigma T : ℝ) (n_steps : ℕ) (Z : ℕ → ℝ)
    (hS0 : 0 < S0) (hT : 0 < T) (hn : 1 ≤ n_steps) :
    ∀ i, 0 < simulate_stock_path S0 r sigma T n_steps Z i := by
  intro i
  induction i with
  | zero => exact hS0
  | succ j ih => exact mul_pos ih (Real.exp_pos _)

/-- Witness for C8 at S0 = 1, r = 0, σ = 1, T = 1, one step, zero draws. -/
theorem C8_witness :
    (0:ℝ) < 1 ∧ 0 < simulate_stock_path 1 0 1 1 1 (fun _ => 0) 1 :=
  ⟨by norm_num, C8_path_positive 1 0 1 1 1 (fun _ => 0) (by norm_num) (by norm_num) (le_refl 1) 1⟩

/-! ## Claim C2: put-call parity -/

/-- Claim C2: for every S>0, K>0, T≥0, any r, σ>0,
`put + S = call + K e^(-rT)` within 1e-6 (it holds exactly in real
arithmetic). -/
theorem C2_put_call_parity (S K T r sigma : ℝ) (hS : 0 < S) (hK : 0 < K)
    (hT : 0 ≤ T) (hsig : 0 < sigma) (pc pp : ℝ)
    (hc : black_scholes_price S K T r sigma OptKind.call = some pc)
    (hp : black_scholes_price S K T r sigma OptKind.put = some pp) :
    |pp + S - (pc + K * Real.exp (-(r * T)))| ≤ 1e-6 := by
  have hpc : pc = callPrice S K T r sigma := by
    simpa [black_scholes_price] using hc.symm
  have hpp : pp = putPrice S K T r sigma := by
    simpa [black_scholes_price] using hp.symm
  have e1 : normCdf (-(d1 S K T r sigma)) = 1 - normCdf (d1 S K T r sigma) := by
    linarith [normCdf_add_normCdf_neg (d1 S K T r sigma)]
  have e2 : normCdf (-(d2 S K T r sigma)) = 1 - normCdf (d2 S K T r sigma) := by
    linarith [normCdf_add_normCdf_neg (d2 S K T r sigma)]
  have hzero : pp + S - (pc + K * Real.exp (-(r * T))) = 0 := by
    rw [hpc, hpp, callPrice, putPrice, e1, e2]
    ring
  rw [hzero]
  norm_num

/-- Witness for C2 at S = K = T = σ = 1, r = 0. -/
theorem C2_witness :
    (0:ℝ) < 1 ∧
    |putPrice 1 1 1 0 1 + 1 - (callPrice 1 1 1 0 1 + 1 * Real.exp (-((0:ℝ) * 1)))| ≤ 1e-6 :=
  ⟨by norm_num,
    C2_put_call_parity 1 1 1 0 1 (by norm_num) (by norm_num) (by norm_num) (by norm_num)
      (callPrice 1 1 1 0 1) (putPrice 1 1 1 0 1) rfl rfl⟩

/-! ## Claim C6: invalid option-kind handling -/

/-- Claim C6 (amended): only `black_scholes_price` raises the invalid-argument
error on an unrecognized kind; `delta`, `theta`, `rho` — and therefore
`calculate_all_greeks` — do not raise: their `else` branches silently treat
any unrecognized kind as a put. -/
theorem C6_kind_handling (S K T r sigma : ℝ) :
    black_scholes_price S K T r sigma OptKind.other = none ∧
    delta S K T r sigma OptKind.other = delta S K T r sigma OptKind.put ∧
    theta S K T r sigma OptKind.other = theta S K T r sigma OptKind.put ∧
    rho S K T r sigma OptKind.other = rho S K T r sigma OptKind.put ∧
    calculate_all_greeks S K T r sigma OptKind.other
      = calculate_all_greeks S K T r sigma OptKind.put :=
  ⟨rfl, rfl, rfl, rfl, rfl⟩

/-- Claim C6 counterexample: at concrete inputs, `delta` and
`calculate_all_greeks` applied to an unrecognized kind return the put values
(`norm.cdf(d1) - 1` for delta) instead of signalling an invalid argument. -/
theorem C6_counterexample :
    calculate_all_greeks 100 100 1 (1/20) (1/5) OptKind.other
      = calculate_all_greeks 100 100 1 (1/20) (1/5) OptKind.put ∧
    delta 100 100 1 (1/20) (1/5) OptKind.other
      = normCdf (d1 100 100 1 (1/20) (1/5)) - 1 :=
  ⟨rfl, rfl⟩

/-! ## Claim C3: price nonnegativity -/

lemma d1_of_T_zero (S K r sigma : ℝ) : d1 S K 0 r sigma = 0 := by
  simp [d1]

lemma d2_of_T_zero (S K r sigma : ℝ) : d2 S K 0 r sigma = 0 := by
  simp [d2, d1_of_T_zero]

/-- Claim C3 counterexample: at S=1, K=2, T=0, r=0, σ=1, `black_scholes_price`
returns the negative number `-(1/2)` for a call (it does not special-case
expiry; `d1 = d2 = 0`, so the call value is `(S - K)/2`). -/
theorem C3_counterexample :
    black_scholes_price 1 2 0 0 1 OptKind.call = some (callPrice 1 2 0 0 1) ∧
    callPrice 1 2 0 0 1 < 0 := by
  refine ⟨rfl, ?_⟩
  rw [callPrice, d1_of_T_zero, d2_of_T_zero, normCdf_zero]
  norm_num [Real.exp_zero]

lemma exp_arg_key (S K T r sigma : ℝ) (hS : 0 < S) (hK : 0 < K) (hT : 0 < T)
    (hsig : 0 < sigma) :
    sigma * Real.sqrt T * (d2 S K T r sigma + sigma * Real.sqrt T / 2)
      = Real.log (S / K) + r * T := by
  have hsT : 0 < Real.sqrt T := Real.sqrt_pos.mpr hT
  have hsq : Real.sqrt T * Real.sqrt T = T := Real.mul_self_sqrt hT.le
  have hTT : ¬ T ≤ 0 := not_le.mpr hT
  rw [d2, d1, if_neg hTT]
  have hne : sigma * Real.sqrt T ≠ 0 := ne_of_gt (mul_pos hsig hsT)
  field_simp
  linear_combination (-(sigma^3 * Real.sqrt T)) * hsq

lemma exp_key (S K T r sigma : ℝ) (hS : 0 < S) (hK : 0 < K) (hT : 0 < T)
    (hsig : 0 < sigma) :
    Real.exp (sigma * Real.sqrt T * (d2 S K T r sigma + sigma * Real.sqrt T / 2))
      = S / K * Real.exp (r * T) := by
  rw [exp_arg_key S K T r sigma hS hK hT hsig, Real.exp_add,
    Real.exp_log (div_pos hS hK)]

lemma callPrice_eq_gKernel (S K T r sigma : ℝ) (hS : 0 < S) (hK : 0 < K)
    (hT : 0 < T) (hsig : 0 < sigma) :
    callPrice S K T r sigma
      = K * Real.exp (-(r * T))
        * gKernel (sigma * Real.sqrt T) (d2 S K T r sigma + sigma * Real.sqrt T / 2) := by
  rw [callPrice, gKernel]
  have h1 : d2 S K T r sigma + sigma * Real.sqrt T / 2 + sigma * Real.sqrt T / 2
      = d1 S K T r sigma := by
    rw [d2]; ring
  have h2 : d2 S K T r sigma + sigma * Real.sqrt T / 2 - sigma * Real.sqrt T / 2
      = d2 S K T r sigma := by ring
  rw [h1, h2, exp_key S K T r sigma hS hK hT hsig]
  have hexp : Real.exp (-(r * T)) * Real.exp (r * T) = 1 := by
    rw [← Real.exp_add]; simp
  field_simp
  linear_combination (-(K * S * normCdf (d1 S K T r sigma))) * hexp

lemma putPrice_eq_gKernel (S K T r sigma : ℝ) (hS : 0 < S) (hK : 0 < K)
    (hT : 0 < T) (hsig : 0 < sigma) :
    putPrice S K T r sigma
      = S * gKernel (sigma * Real.sqrt T)
          (-(d2 S K T r sigma) - sigma * Real.sqrt T / 2) := by
  rw [putPrice, gKernel]
  have h1 : -(d2 S K T r sigma) - sigma * Real.sqrt T / 2 + sigma * Real.sqrt T / 2
      = -(d2 S K T r sigma) := by ring
  have h2 : -(d2 S K T r sigma) - sigma * Real.sqrt T / 2 - sigma * Real.sqrt T / 2
      = -(d1 S K T r sigma) := by
    rw [d2]; ring
  have hey : Real.exp (sigma * Real.sqrt T
      * (-(d2 S K T r sigma) - sigma * Real.sqrt T / 2))
      = K / S * Real.exp (-(r * T)) := by
    have harg : sigma * Real.sqrt T * (-(d2 S K T r sigma) - sigma * Real.sqrt T / 2)
        = -(sigma * Real.sqrt T * (d2 S K T r sigma + sigma * Real.sqrt T / 2)) := by
      ring
    rw [harg, Real.exp_neg, exp_key S K T r sigma hS hK hT hsig, mul_inv, inv_div,
      ← Real.exp_neg]
  rw [h1, h2, hey]
  field_simp

/-- Claim C3 (amended): for S>0, K>0, **T>0**, any r, σ>0 and kind call or
put, `black_scholes_price` returns a nonnegative number.  (At T=0 the claim
fails: the function returns `(S-K)/2` for a call and `(K-S)/2` for a put,
which is negative out of the money — see the counterexample.) -/
theorem C3_price_nonneg (S K T r sigma : ℝ) (hS : 0 < S) (hK : 0 < K)
    (hT : 0 < T) (hsig : 0 < sigma) (ot : OptKind)
    (hot : ot = OptKind.call ∨ ot = OptKind.put) (p : ℝ)
    (hp : black_scholes_price S K T r sigma ot = some p) : 0 ≤ p := by
  have ha : 0 < sigma * Real.sqrt T := mul_pos hsig (Real.sqrt_pos.mpr hT)
  rcases hot with rfl | rfl
  · have hp' : p = callPrice S K T r sigma := by
      simpa [black_scholes_price] using hp.symm
    rw [hp', callPrice_eq_gKernel S K T r sigma hS hK hT hsig]
    exact mul_nonneg (mul_nonneg hK.le (Real.exp_pos _).le) (gKernel_nonneg ha _)
  · have hp' : p = putPrice S K T r sigma := by
      simpa [black_scholes_price] using hp.symm
    rw [hp', putPrice_eq_gKernel S K T r sigma hS hK hT hsig]
    exact mul_nonneg hS.le (gKernel_nonneg ha _)

/-- Witness for C3 (amended) at S = K = T = σ = 1, r = 0, call. -/
theorem C3_witness :
    (0:ℝ) < 1 ∧ 0 ≤ callPrice 1 1 1 0 1 :=
  ⟨by norm_num,
    C3_price_nonneg 1 1 1 0 1 (by norm_num) (by norm_num) (by norm_num) (by norm_num)
      OptKind.call (Or.inl rfl) (callPrice 1 1 1 0 1) rfl⟩

/-! ## Claim C9: bisection stays inside the initial interval -/

lemma bisectGo_mem_of_invariant (market S K T r tol : ℝ) (ot : OptKind)
    (maxIter : ℕ) (lo0 hi0 : ℝ) :
    ∀ fuel i lo hi lastMid res,
      lo0 ≤ lo → lo < hi → hi ≤ hi0 →
      (∀ m, lastMid = some m → lo0 < m ∧ m < hi0) →
      bisectGo market S K T r tol ot maxIter fuel i lo hi lastMid = Except.ok res →
      lo0 < res.implied_vol ∧ res.implied_vol < hi0 := by
  intro fuel
  induction fuel with
  | zero =>
    intro i lo hi lastMid res hlo hlh hhi hmid hres
    cases lastMid with
    | none => exact Except.noConfusion hres
    | some mid =>
      have hm := hmid mid rfl
      have hres' : bisectFinal market S K T r ot maxIter mid = Except.ok res := hres
      rw [bisectFinal] at hres'
      cases hbs : black_scholes_price S K T r mid ot with
      | none => rw [hbs] at hres'; exact Except.noConfusion hres'
      | some q =>
        rw [hbs] at hres'
        obtain rfl := Except.ok.inj hres'
        exact hm
  | succ fuel ih =>
    intro i lo hi lastMid res hlo hlh hhi hmid hres
    have hmid1 : lo < (lo + hi) / 2 := by linarith
    have hmid2 : (lo + hi) / 2 < hi := by linarith
    cases hbs : black_scholes_price S K T r ((lo + hi) / 2) ot with
    | none =>
      simp only [bisectGo, hbs] at hres
      exact Except.noConfusion hres
    | some q =>
      simp only [bisectGo, hbs] at hres
      split_ifs at hres with h1 h2
      · obtain rfl := Except.ok.inj hres
        exact ⟨lt_of_le_of_lt hlo hmid1, lt_of_lt_of_le hmid2 hhi⟩
      · refine ih (i+1) lo ((lo + hi) / 2) (some ((lo + hi) / 2)) res hlo hmid1
          (le_of_lt (lt_of_lt_of_le hmid2 hhi)) ?_ hres
        intro m hm
        obtain rfl := Option.some.inj hm
        exact ⟨lt_of_le_of_lt hlo hmid1, lt_of_lt_of_le hmid2 hhi⟩
      · refine ih (i+1) ((lo + hi) / 2) hi (some ((lo + hi) / 2)) res
          (le_of_lt (lt_of_le_of_lt hlo hmid1)) hmid2 hhi ?_ hres
        intro m hm
        obtain rfl := Option.some.inj hm
        exact ⟨lt_of_le_of_lt hlo hmid1, lt_of_lt_of_le hmid2 hhi⟩

/-- Claim C9: whenever `implied_volatility_bisection` is called with
`vol_low < vol_high` and returns (converged or not), the reported
`implied_vol` lies strictly inside the initial interval
`(vol_low, vol_high)`. -/
theorem C9_bisection_in_interval (market S K T r vol_low vol_high tol : ℝ)
    (ot : OptKind) (maxIter : ℕ) (h : vol_low < vol_high) (res : SolverResult)
    (hres : implied_volatility_bisection market S K T r ot vol_low vol_high tol maxIter
      = Except.ok res) :
    vol_low < res.implied_vol ∧ res.implied_vol < vol_high :=
  bisectGo_mem_of_invariant market S K T r tol ot maxIter vol_low vol_high
    maxIter 0 vol_low vol_high none res (le_refl _) h (le_refl _)
    (fun m hm => Option.noConfusion hm) hres

/-- Witness for C9: market 1, S = 3, K = 1, T = 0, r = 0, call, interval
`[1, 3]`, tolerance 1, one iteration.  At T = 0 the call prices to
`(S-K)/2 = 1`, so bisection converges at the first midpoint 2, which lies in
`(1, 3)`. -/
theorem C9_witness :
    (1:ℝ) < 3 ∧
    (1:ℝ) < (SolverResult.mk 2 true 1 0).implied_vol ∧
    (SolverResult.mk 2 true 1 0).implied_vol < 3 := by
  have hm2 : ((1:ℝ) + 3) / 2 = 2 := by norm_num
  have hcp : callPrice 3 1 0 0 2 = 1 := by
    rw [callPrice, d1_of_T_zero, d2_of_T_zero, normCdf_zero]
    norm_num [Real.exp_zero]
  have hres : implied_volatility_bisection 1 3 1 0 0 OptKind.call 1 3 1 1
      = Except.ok (SolverResult.mk 2 true 1 0) := by
    show bisectGo 1 3 1 0 0 1 OptKind.call 1 (0 + 1) 0 1 3 none
      = Except.ok (SolverResult.mk 2 true 1 0)
    simp only [bisectGo, black_scholes_price]
    rw [hm2, hcp]
    norm_num
  exact ⟨by norm_num,
    C9_bisection_in_interval 1 3 1 0 0 1 3 1 OptKind.call 1 (by norm_num)
      (SolverResult.mk 2 true 1 0) hres⟩

/-- The defining equation of `newtonGo` at positive fuel, for unfolding at
numeric literals. -/
lemma newtonGo_succ_eq (market S K T r tol : ℝ) (ot : OptKind)
    (maxIter fuel i : ℕ) (sigma : ℝ) :
    newtonGo market S K T r tol ot maxIter (fuel + 1) i sigma =
      match black_scholes_price S K T r sigma ot with
      | none => Except.error ()
      | some bs_price =>
        if |bs_price - market| < tol then
          Except.ok ⟨sigma, true, i + 1, |bs_price - market|⟩
        else if |vega S K T r sigma * 100| < 1e-10 then
          match black_scholes_price S K T r sigma ot with
          | none => Except.error ()
          | some p => Except.ok ⟨sigma, false, maxIter, |p - market|⟩
        else
          newtonGo market S K T r tol ot maxIter fuel (i + 1)
            (if sigma - (bs_price - market) / (vega S K T r sigma * 100) ≤ 0 then 0.01
             else sigma - (bs_price - market) / (vega S K T r sigma * 100)) := rfl

/-! ## Claim C10: the non-converged Newton result -/

lemma newtonGo_nonconverged (market S K T r tol : ℝ) (ot : OptKind) (maxIter : ℕ) :
    ∀ fuel i sigma res,
      newtonGo market S K T r tol ot maxIter fuel i sigma = Except.ok res →
      res.converged = false →
      res.iterations = maxIter ∧
      ∀ q, black_scholes_price S K T r res.implied_vol ot = some q →
        res.final_error = |q - market| := by
  intro fuel
  induction fuel with
  | zero =>
    intro i sigma res hres hconv
    cases hbs : black_scholes_price S K T r sigma ot with
    | none =>
      simp only [newtonGo, hbs] at hres
      exact Except.noConfusion hres
    | some p =>
      simp only [newtonGo, hbs] at hres
      obtain rfl := Except.ok.inj hres
      refine ⟨rfl, fun q hq => ?_⟩
      rw [hbs] at hq
      obtain rfl := Option.some.inj hq
      rfl
  | succ fuel ih =>
    intro i sigma res hres hconv
    cases hbs : black_scholes_price S K T r sigma ot with
    | none =>
      simp only [newtonGo, hbs] at hres
      exact Except.noConfusion hres
    | some p =>
      simp only [newtonGo, hbs] at hres
      split_ifs at hres with h1 h2
      · obtain rfl := Except.ok.inj hres
        exact absurd hconv (by simp)
      · obtain rfl := Except.ok.inj hres
        refine ⟨rfl, fun q hq => ?_⟩
        rw [hbs] at hq
        obtain rfl := Option.some.inj hq
        rfl
      · exact ih _ _ _ hres hconv
      · exact ih _ _ _ hres hconv

/-- Claim C10: whenever `implied_volatility_newton` returns a non-converged
result — including after an early abort through the near-zero-vega guard —
the `iterations` field equals `max_iterations` (not the number of iterations
actually executed), and `final_error` is the recomputed
`|black_scholes_price(final σ) - market_price|`. -/
theorem C10_newton_nonconverged (market S K T r : ℝ) (ot : OptKind)
    (initial_vol tol : ℝ) (maxIter : ℕ) (res : SolverResult)
    (hres : implied_volatility_newton market S K T r ot initial_vol tol maxIter
      = Except.ok res)
    (hconv : res.converged = false) :
    res.iterations = maxIter ∧
    ∀ q, black_scholes_price S K T r res.implied_vol ot = some q →
      res.final_error = |q - market| :=
  newtonGo_nonconverged market S K T r tol ot maxIter maxIter 0 initial_vol res hres hconv

/-- Witness for C10: with `max_iterations = 0` the loop never runs and the
non-converged dictionary is returned directly at σ = 0.2. -/
theorem C10_witness :
    (SolverResult.mk 0.2 false 0 |callPrice 1 1 1 0 0.2 - 0|).iterations = 0 ∧
    (SolverResult.mk 0.2 false 0 |callPrice 1 1 1 0 0.2 - 0|).final_error
      = |callPrice 1 1 1 0 0.2 - 0| := by
  have h := C10_newton_nonconverged 0 1 1 1 0 OptKind.call 0.2 1e-6 0
    (SolverResult.mk 0.2 false 0 |callPrice 1 1 1 0 0.2 - 0|) rfl rfl
  exact ⟨h.1, h.2 (callPrice 1 1 1 0 0.2) rfl⟩

/-! ## Claim C5: the Newton-Raphson protocol -/

lemma newtonGo_eq_spec (market S K T r tol : ℝ) (ot : OptKind) (maxIter : ℕ)
    (f : ℝ → ℝ) (hf : ∀ s, black_scholes_price S K T r s ot = some (f s)) :
    ∀ fuel i sigma,
      newtonGo market S K T r tol ot maxIter fuel i sigma =
        Except.ok (newtonSpecLoop f (fun s => vega S K T r s) market tol maxIter
          fuel i sigma) := by
  intro fuel
  induction fuel with
  | zero =>
    intro i sigma
    simp only [newtonGo, hf sigma, newtonSpecLoop]
  | succ fuel ih =>
    intro i sigma
    simp only [newtonGo, hf sigma, newtonSpecLoop]
    split_ifs with h1 h2 h3
    · rfl
    · rfl
    · exact ih _ _
    · exact ih _ _

/-- Claim C5: `implied_volatility_newton`, started from σ = 0.20 (its
default), follows exactly the Newton protocol described by the specification
(`newtonSpecLoop`), driven by the Black-Scholes price at the requested kind
and the Greeks-engine vega rescaled by 100. -/
theorem C5_newton_protocol (market S K T r tol : ℝ) (maxIter : ℕ) (ot : OptKind)
    (hot : ot = OptKind.call ∨ ot = OptKind.put) :
    ∃ f : ℝ → ℝ, (∀ s, black_scholes_price S K T r s ot = some (f s)) ∧
      implied_volatility_newton market S K T r ot 0.2 tol maxIter =
        Except.ok (newtonSpecRun f (fun s => vega S K T r s) market tol maxIter) := by
  rcases hot with rfl | rfl
  · exact ⟨fun s => callPrice S K T r s, fun s => rfl,
      newtonGo_eq_spec market S K T r tol OptKind.call maxIter
        (fun s => callPrice S K T r s) (fun s => rfl) maxIter 0 0.2⟩
  · exact ⟨fun s => putPrice S K T r s, fun s => rfl,
      newtonGo_eq_spec market S K T r tol OptKind.put maxIter
        (fun s => putPrice S K T r s) (fun s => rfl) maxIter 0 0.2⟩

/-- Witness for C5 at market 1, S = 3, K = 1, T = 1, r = 0, call, tolerance 1,
five iterations. -/
theorem C5_witness :
    (OptKind.call = OptKind.call ∨ OptKind.call = OptKind.put) ∧
    implied_volatility_newton 1 3 1 1 0 OptKind.call 0.2 1 5 =
      Except.ok (newtonSpecRun (fun s => callPrice 3 1 1 0 s)
        (fun s => vega 3 1 1 0 s) 1 1 5) := by
  refine ⟨Or.inl rfl, ?_⟩
  obtain ⟨f, hf, heq⟩ := C5_newton_protocol 1 3 1 1 0 1 5 OptKind.call (Or.inl rfl)
  have hfe : f = fun s => callPrice 3 1 1 0 s := by
    funext s
    have := hf s
    simpa [black_scholes_price] using this.symm
  rw [hfe] at heq
  exact heq

/-! ## Claim C4: the composed implied-volatility entry point -/

lemma newtonGo_total (market S K T r tol : ℝ) (ot : OptKind) (maxIter : ℕ)
    (hot : ot = OptKind.call ∨ ot = OptKind.put) (fuel i : ℕ) (sigma : ℝ) :
    ∃ res, newtonGo market S K T r tol ot maxIter fuel i sigma = Except.ok res := by
  rcases hot with rfl | rfl
  · exact ⟨_, newtonGo_eq_spec market S K T r tol OptKind.call maxIter
      (fun s => callPrice S K T r s) (fun s => rfl) fuel i sigma⟩
  · exact ⟨_, newtonGo_eq_spec market S K T r tol OptKind.put maxIter
      (fun s => putPrice S K T r s) (fun s => rfl) fuel i sigma⟩

lemma bisectGo_total (market S K T r tol : ℝ) (ot : OptKind) (maxIter : ℕ)
    (hot : ot = OptKind.call ∨ ot = OptKind.put) :
    ∀ fuel i lo hi lastMid, (lastMid ≠ none ∨ fuel ≠ 0) →
      ∃ res, bisectGo market S K T r tol ot maxIter fuel i lo hi lastMid
        = Except.ok res := by
  have hbs : ∀ s : ℝ, ∃ q, black_scholes_price S K T r s ot = some q := by
    rcases hot with rfl | rfl
    · exact fun s => ⟨callPrice S K T r s, rfl⟩
    · exact fun s => ⟨putPrice S K T r s, rfl⟩
  intro fuel
  induction fuel with
  | zero =>
    intro i lo hi lastMid hcond
    cases lastMid with
    | none =>
      rcases hcond with h | h
      · exact absurd rfl h
      · exact absurd rfl h
    | some mid =>
      obtain ⟨q, hq⟩ := hbs mid
      refine ⟨⟨mid, false, maxIter, |q - market|⟩, ?_⟩
      show bisectFinal market S K T r ot maxIter mid = _
      rw [bisectFinal, hq]
  | succ fuel ih =>
    intro i lo hi lastMid _
    obtain ⟨q, hq⟩ := hbs ((lo + hi) / 2)
    simp only [bisectGo, hq]
    split_ifs with h1 h2
    · exact ⟨_, rfl⟩
    · exact ih _ _ _ _ (Or.inl (by simp))
    · exact ih _ _ _ _ (Or.inl (by simp))

/-- Claim C4: `calculate_implied_vol` tries Newton-Raphson first; exactly when
Newton does not converge it falls back to bisection; exactly when both fail it
returns the NaN sentinel (the inner `none`); and for a call or put kind it
never raises (the outer value is always `Except.ok`). -/
theorem C4_dispatcher (market S K T r : ℝ) (ot : OptKind)
    (hot : ot = OptKind.call ∨ ot = OptKind.put) :
    (∃ v, calculate_implied_vol market S K T r ot = Except.ok v) ∧
    (∀ nres, implied_volatility_newton market S K T r ot 0.2 1e-6 100 = Except.ok nres →
      (nres.converged = true →
        calculate_implied_vol market S K T r ot = Except.ok (some nres.implied_vol)) ∧
      (nres.converged = false →
        ∀ bres,
          implied_volatility_bisection market S K T r ot 0.001 3.0 1e-6 100
            = Except.ok bres →
          calculate_implied_vol market S K T r ot =
            Except.ok (if bres.converged then some bres.implied_vol else none))) := by
  obtain ⟨nres0, hn0⟩ :=
    newtonGo_total market S K T r (1e-6) ot 100 hot 100 0 0.2
  have hn0' : implied_volatility_newton market S K T r ot 0.2 1e-6 100
      = Except.ok nres0 := hn0
  obtain ⟨bres0, hb0⟩ :=
    bisectGo_total market S K T r (1e-6) ot 100 hot 100 0 0.001 3.0 none
      (Or.inr (by norm_num))
  have hb0' : implied_volatility_bisection market S K T r ot 0.001 3.0 1e-6 100
      = Except.ok bres0 := hb0
  have hcalc : calculate_implied_vol market S K T r ot =
      (if nres0.converged then Except.ok (some nres0.implied_vol)
       else if bres0.converged then Except.ok (some bres0.implied_vol)
       else Except.ok none) := by
    rw [calculate_implied_vol, hn0']
    by_cases hc : nres0.converged = true
    · simp [hc]
    · have hc' : nres0.converged = false := by simpa using hc
      simp only [hc', Bool.false_eq_true, if_false]
      rw [hb0']
  constructor
  · refine ⟨if nres0.converged then some nres0.implied_vol
      else if bres0.converged then some bres0.implied_vol else none, ?_⟩
    rw [hcalc]
    split_ifs <;> rfl
  · intro nres hn
    obtain rfl := Except.ok.inj (hn0'.symm.trans hn)
    constructor
    · intro hct
      rw [hcalc, if_pos hct]
    · intro hcf bres hb
      obtain rfl := Except.ok.inj (hb0'.symm.trans hb)
      rw [hcalc, if_neg (by simp [hcf])]
      by_cases hcb : bres0.converged = true
      · rw [if_pos hcb, if_pos hcb]
      · have hcb' : bres0.converged = false := by simpa using hcb
        rw [if_neg (by simp [hcb']), if_neg (by simp [hcb'])]

/-- Witness for C4: market 1, S = 3, K = 1, T = 0, r = 0, call.  Newton
converges at its first iteration (the T = 0 call prices to 1 = market for any
σ), so the dispatcher returns `some 0.2` without raising. -/
theorem C4_witness :
    (OptKind.call = OptKind.call ∨ OptKind.call = OptKind.put) ∧
    calculate_implied_vol 1 3 1 0 0 OptKind.call = Except.ok (some 0.2) := by
  have hcp : callPrice 3 1 0 0 (0.2 : ℝ) = 1 := by
    rw [callPrice, d1_of_T_zero, d2_of_T_zero, normCdf_zero]
    norm_num [Real.exp_zero]
  have hn : implied_volatility_newton 1 3 1 0 0 OptKind.call 0.2 1e-6 100
      = Except.ok (SolverResult.mk 0.2 true 1 |callPrice 3 1 0 0 0.2 - 1|) := by
    show newtonGo 1 3 1 0 0 1e-6 OptKind.call 100 (99 + 1) 0 0.2
      = Except.ok (SolverResult.mk 0.2 true 1 |callPrice 3 1 0 0 0.2 - 1|)
    rw [newtonGo_succ_eq]
    simp only [black_scholes_price]
    rw [if_pos (by rw [hcp]; norm_num)]
  have h := (C4_dispatcher 1 3 1 0 0 OptKind.call (Or.inl rfl)).2
    (SolverResult.mk 0.2 true 1 |callPrice 3 1 0 0 0.2 - 1|) hn
  exact ⟨Or.inl rfl, h.1 rfl⟩

end BSM
